import Mathlib

/-!
Verification of the quantum-factory-method example (`examples/qrbs.py` and
`examples/inferential_circuit.py`).

The inference tree (`Fact`, `NotOperator`, `AndOperator`, `OrOperator`) is
embedded as the inductive type `IC`.  A built circuit is embedded as its
gate list over `Nat`-indexed qubits together with the tag dictionary; the
Python `dict` is modelled as an insertion-ordered association list with the
dict update / delete / merge operations.  `del tags[k]` can raise `KeyError`
in Python, so the builders return `Option`.  The two backends are embedded
separately, following their sources: the Qiskit builder carries an explicit
register width, while the Cirq builder recomputes widths from the set of
qubits actually used (`all_qubits`) and renames child qubits through the
enumeration of the child operation's sorted qubit list, exactly as the code
builds its `qubit_map`.
-/

set_option autoImplicit false

namespace QRBS

/-- The inference tree of `inferential_circuit.py`: a `Fact`, or a
`NotOperator` with one child, or an `AndOperator` / `OrOperator` with two
children; every node carries a tag and a certainty. -/
inductive IC where
| fact (tag : String) (certainty : ℚ) : IC
| notOp (tag : String) (certainty : ℚ) (child : IC) : IC
| andOp (tag : String) (certainty : ℚ) (left_child right_child : IC) : IC
| orOp (tag : String) (certainty : ℚ) (left_child right_child : IC) : IC
deriving DecidableEq, Repr

/-- The `tag` attribute of a node (`InferentialCircuit.tag`). -/
def IC.tag : IC → String
| .fact t _ => t
| .notOp t _ _ => t
| .andOp t _ _ _ => t
| .orOp t _ _ _ => t

/-- One gate of a built circuit, on `Nat`-indexed qubits: the `X` gate, a
controlled-NOT, a Toffoli, the certainty gate `M` (carrying its certainty
parameter), or a measurement over a list of qubits. -/
inductive Gate where
| x (q : ℕ) : Gate
| cx (control target : ℕ) : Gate
| ccx (control1 control2 target : ℕ) : Gate
| m (certainty : ℚ) (q : ℕ) : Gate
| meas (qs : List ℕ) : Gate
deriving DecidableEq, Repr

/-- Renaming the qubits of a gate (Cirq's `with_qubit_mapping`). -/
def Gate.rename (f : ℕ → ℕ) : Gate → Gate
| .x q => .x (f q)
| .cx c t => .cx (f c) (f t)
| .ccx a b t => .ccx (f a) (f b) (f t)
| .m cert q => .m cert (f q)
| .meas qs => .meas (qs.map f)

/-- The qubits a gate acts on, as a list. -/
def Gate.qubitList : Gate → List ℕ
| .x q => [q]
| .cx c t => [c, t]
| .ccx a b t => [a, b, t]
| .m _ q => [q]
| .meas qs => qs

/-- The set of qubits a gate acts on. -/
def Gate.qubits (g : Gate) : Finset ℕ := g.qubitList.toFinset

/-- Tag dictionaries: insertion-ordered association lists from tag to qubit
index, modelling the Python `dict[str, int]`. -/
abbrev Tags := List (String × ℕ)

/-- Dictionary lookup, `d[k]` as an `Option`. -/
def dictLookup : Tags → String → Option ℕ
| [], _ => none
| (k', v) :: rest, k => if k' = k then some v else dictLookup rest k

/-- Dictionary assignment `d[k] = v`: updates the entry in place if the key
is present, otherwise appends it, as a Python dict does. -/
def dictSet : Tags → String → ℕ → Tags
| [], k, v => [(k, v)]
| (k', v') :: rest, k, v =>
    if k' = k then (k, v) :: rest else (k', v') :: dictSet rest k v

/-- Removal of the entry of key `k` (the effect of a successful
`del d[k]`). -/
def dictDel : Tags → String → Tags
| [], _ => []
| (k', v') :: rest, k => if k' = k then rest else (k', v') :: dictDel rest k

/-- Python's `del d[k]`: fails (raises `KeyError`) when the key is absent. -/
def dictDelE (d : Tags) (k : String) : Option Tags :=
  if (dictLookup d k).isSome then some (dictDel d k) else none

/-- The dict comprehension shifting every value by `n`. -/
def dictShift (d : Tags) (n : ℕ) : Tags := d.map (fun p => (p.1, p.2 + n))

/-- The Python merge `{**a, **b}`: entries of `b` assigned into a copy of
`a`, overwriting common keys. -/
def dictMerge (a b : Tags) : Tags := b.foldl (fun d p => dictSet d p.1 p.2) a

/-- A built Qiskit circuit: the tag dictionary, the register width
(`num_qubits` of the `QuantumCircuit`), and the gate list. -/
structure QiskitCircuit where
  tags : Tags
  numQubits : ℕ
  gates : List Gate
deriving DecidableEq, Repr

/-- A built Cirq circuit: the tag dictionary and the gate list; Cirq has no
register, so no width field is stored. -/
structure CirqCircuit where
  tags : Tags
  gates : List Gate
deriving DecidableEq, Repr

/-- The set of qubits used by a gate list (`circuit.all_qubits()`). -/
def allQubits (gs : List Gate) : Finset ℕ :=
  (gs.flatMap Gate.qubitList).toFinset

/-- The distinct qubits used by a gate list, in increasing order: the
ordered qubit sequence of a frozen Cirq circuit. -/
def sortedAllQubits (gs : List Gate) : List ℕ :=
  List.insertionSort (· ≤ ·) (gs.flatMap Gate.qubitList).dedup

/-- `len(circuit.all_qubits())` for a built Cirq circuit. -/
def cirqNumQubits (c : CirqCircuit) : ℕ := (sortedAllQubits c.gates).length

/-- The qubit renaming the Cirq builders construct: the child operation's
qubits (the sorted qubits of the frozen child circuit) are enumerated and
the `i`-th one is mapped to `LineQubit (offset + i)`; so a qubit `q` goes to
`offset` plus its position in the sorted qubit list. -/
def cirqQubitMap (childGates : List Gate) (offset : ℕ) (q : ℕ) : ℕ :=
  offset + (sortedAllQubits childGates).indexOf q

/-- `QiskitPlatform`'s builder (`build_fact` / `build_not` / `build_and` /
`build_or`, dispatched through `accept`).  `none` models an uncaught
`KeyError` from `del tags[...]`. -/
def buildQiskit : IC → Option QiskitCircuit
| .fact tag certainty =>
    some { tags := [(tag, 0)], numQubits := 1, gates := [Gate.m certainty 0] }
| .notOp tag certainty child => do
    let childCirc ← buildQiskit child
    let height := childCirc.numQubits + 2
    let tags0 ← dictDelE childCirc.tags child.tag
    let tags := dictSet tags0 tag (height - 1)
    some { tags := tags, numQubits := height,
           gates := childCirc.gates ++
             [Gate.x (height - 3), Gate.m certainty (height - 2),
              Gate.ccx (height - 3) (height - 2) (height - 1)] }
| .andOp tag certainty l r => do
    let leftCirc ← buildQiskit l
    let rightCirc ← buildQiskit r
    let L := leftCirc.numQubits
    let R := rightCirc.numQubits
    let height := L + R + 3
    let tags1 := dictMerge leftCirc.tags (dictShift rightCirc.tags L)
    let tags2 := dictSet tags1 l.tag (L - 1)
    let tags3 := dictSet tags2 r.tag (L + R - 1)
    let tags4 := dictSet tags3 tag (height - 1)
    some { tags := tags4, numQubits := height,
           gates := leftCirc.gates ++ rightCirc.gates.map (Gate.rename (· + L)) ++
             [Gate.ccx (L - 1) (L + R - 1) (height - 3),
              Gate.m certainty (height - 2),
              Gate.ccx (height - 3) (height - 2) (height - 1)] }
| .orOp tag certainty l r => do
    let leftCirc ← buildQiskit l
    let rightCirc ← buildQiskit r
    let L := leftCirc.numQubits
    let R := rightCirc.numQubits
    let height := L + R + 3
    let tags1 := dictMerge leftCirc.tags (dictShift rightCirc.tags L)
    let tags2 := dictSet tags1 l.tag (L - 1)
    let tags3 := dictSet tags2 r.tag (L + R - 1)
    let tags4 := dictSet tags3 tag (height - 1)
    some { tags := tags4, numQubits := height,
           gates := leftCirc.gates ++ rightCirc.gates.map (Gate.rename (· + L)) ++
             [Gate.ccx (L - 1) (L + R - 1) (height - 3),
              Gate.cx (L - 1) (height - 3),
              Gate.cx (L + R - 1) (height - 3),
              Gate.m certainty (height - 2),
              Gate.ccx (height - 3) (height - 2) (height - 1)] }

/-- `CirqPlatform`'s builder.  Widths are recomputed from `all_qubits()` and
child circuits are embedded through `CircuitOperation.with_qubit_mapping`
with the enumeration map `cirqQubitMap`, as in the source. -/
def buildCirq : IC → Option CirqCircuit
| .fact tag certainty =>
    let tags : Tags := [(tag, 0)]
    let tags := dictSet tags tag 0
    some { tags := tags, gates := [Gate.m certainty 0] }
| .notOp tag certainty child => do
    let childCirc ← buildCirq child
    let height := cirqNumQubits childCirc + 2
    let tags0 ← dictDelE childCirc.tags child.tag
    let tags := dictSet tags0 tag (height - 1)
    some { tags := tags,
           gates := childCirc.gates.map (Gate.rename (cirqQubitMap childCirc.gates 0)) ++
             [Gate.x (height - 3), Gate.m certainty (height - 2),
              Gate.ccx (height - 3) (height - 2) (height - 1)] }
| .andOp tag certainty l r => do
    let leftCirc ← buildCirq l
    let rightCirc ← buildCirq r
    let L := cirqNumQubits leftCirc
    let R := cirqNumQubits rightCirc
    let height := L + R + 3
    let tags1 := dictMerge leftCirc.tags (dictShift rightCirc.tags L)
    let tags2 := dictSet tags1 l.tag (L - 1)
    let tags3 := dictSet tags2 r.tag (L + R - 1)
    let tags4 := dictSet tags3 tag (height - 1)
    some { tags := tags4,
           gates := leftCirc.gates.map (Gate.rename (cirqQubitMap leftCirc.gates 0)) ++
             rightCirc.gates.map (Gate.rename (cirqQubitMap rightCirc.gates L)) ++
             [Gate.ccx (L - 1) (L + R - 1) (height - 3),
              Gate.m certainty (height - 2),
              Gate.ccx (height - 3) (height - 2) (height - 1)] }
| .orOp tag certainty l r => do
    let leftCirc ← buildCirq l
    let rightCirc ← buildCirq r
    let L := cirqNumQubits leftCirc
    let R := cirqNumQubits rightCirc
    let height := L + R + 3
    let tags1 := dictMerge leftCirc.tags (dictShift rightCirc.tags L)
    let tags2 := dictSet tags1 l.tag (L - 1)
    let tags3 := dictSet tags2 r.tag (L + R - 1)
    let tags4 := dictSet tags3 tag (height - 1)
    some { tags := tags4,
           gates := leftCirc.gates.map (Gate.rename (cirqQubitMap leftCirc.gates 0)) ++
             rightCirc.gates.map (Gate.rename (cirqQubitMap rightCirc.gates L)) ++
             [Gate.ccx (L - 1) (L + R - 1) (height - 3),
              Gate.cx (L - 1) (height - 3),
              Gate.cx (L + R - 1) (height - 3),
              Gate.m certainty (height - 2),
              Gate.ccx (height - 3) (height - 2) (height - 1)] }

/-- The key set of a tag dictionary. -/
def dictKeys (d : Tags) : Finset String := (d.map Prod.fst).toFinset

/-- Well-formedness of a tag dictionary: its keys are pairwise distinct, as
the keys of a Python dict always are. -/
def TagsND (d : Tags) : Prop := (d.map Prod.fst).Nodup

/-- `measure_all()` in `QiskitPlatform.execute`: a measurement of every
register qubit is appended to the built circuit.  The mutation of the
fragment is modelled by explicit state passing: this function returns the
updated fragment. -/
def qiskitMeasureAll (c : QiskitCircuit) : QiskitCircuit :=
  { c with gates := c.gates ++ [Gate.meas (List.range c.numQubits)] }

/-- `circ.append(cirq.measure(*circ.all_qubits()))` in
`CirqPlatform.execute`: a measurement of every used qubit is appended to the
built circuit (the set `all_qubits()` is unordered; it is enumerated here in
increasing order).  As for Qiskit, the in-place mutation is modelled by
returning the updated fragment. -/
def cirqMeasureAll (c : CirqCircuit) : CirqCircuit :=
  { c with gates := c.gates ++ [Gate.meas (sortedAllQubits c.gates)] }

/-- Measurement counts from the Qiskit simulator after `execute`'s key
reversal `{k[::-1]: v for k, v in counts.items()}`: a list of
(bitstring, multiplicity) pairs in which bit `i` of a key is the measured
value of qubit `i`. -/
abbrev Counts := List (List Bool × ℕ)

/-- The total number of shots recorded in a counts dictionary. -/
def countsTotal (counts : Counts) : ℕ := (counts.map Prod.snd).sum

/-- The inner loop of `QiskitPlatform.execute`: the number of shots in which
qubit `q` was observed in state 1, summed over the count entries whose key
has bit `q` set. -/
def countOnesAt (counts : Counts) (q : ℕ) : ℕ :=
  (counts.map (fun p => if p.1.getD q false then p.2 else 0)).sum

/-- The value list built by `QiskitPlatform.execute`: one
`{'tag': kq, 'measure': temp/1024}` record per tag entry. -/
def qiskitExecuteValues (tags : Tags) (counts : Counts) : List (String × ℚ) :=
  tags.map (fun p => (p.1, (countOnesAt counts p.2 : ℚ) / 1024))

/-- The inner loop of `CirqPlatform.execute`: `measures` holds one bit list
per repetition, ordered by the measurement's qubit list `keys`; the value of
qubit `q` in a shot sits at position `keys.index(q)`. -/
def shotOnesAt (keys : List ℕ) (measures : List (List Bool)) (q : ℕ) : ℕ :=
  (measures.map (fun s => if s.getD (keys.indexOf q) false then 1 else 0)).sum

/-- The value list built by `CirqPlatform.execute`: one
`{'tag': kq, 'measure': temp/1024}` record per tag entry. -/
def cirqExecuteValues (tags : Tags) (keys : List ℕ) (measures : List (List Bool)) :
    List (String × ℚ) :=
  tags.map (fun p => (p.1, (shotOnesAt keys measures p.2 : ℚ) / 1024))

/-- `QiskitPlatform._build_m_operator`: the matrix
`[[cos α, sin α], [sin α, -cos α]]` with `α = certainty * π / 2`. -/
noncomputable def buildMOperator (certainty : ℝ) : Matrix (Fin 2) (Fin 2) ℝ :=
  let alpha := certainty * Real.pi / 2
  !![Real.cos alpha, Real.sin alpha; Real.sin alpha, -Real.cos alpha]

/-- `CirqPlatform.MGate._unitary_`: the same array, divided elementwise by
`np.sqrt(2)`. -/
noncomputable def mGateUnitary (certainty : ℝ) : Matrix (Fin 2) (Fin 2) ℝ :=
  let alpha := certainty * Real.pi / 2
  !![Real.cos alpha / Real.sqrt 2, Real.sin alpha / Real.sqrt 2;
     Real.sin alpha / Real.sqrt 2, -Real.cos alpha / Real.sqrt 2]

/-- Probability of measuring 1 on a one-qubit state with real amplitudes,
with the normalization a sampling simulator applies to the probability
vector. -/
noncomputable def born1 (v : Fin 2 → ℝ) : ℝ := (v 1) ^ 2 / ((v 0) ^ 2 + (v 1) ^ 2)

/-- The one-qubit state prepared by a single-`M`-gate circuit on `|0⟩`. -/
noncomputable def stateOnZero (M : Matrix (Fin 2) (Fin 2) ℝ) : Fin 2 → ℝ :=
  M.mulVec ![1, 0]

/-- Modelled from the spec: the tag set §8 describes for a built fragment —
"{root tag} ∪ {every AND/OR child tag that was not deleted} minus any tag
deleted by an enclosing NOT".  A NOT node removes its child's own tag and
contributes its root tag; an AND/OR node keeps both children's tag sets,
their two root tags, and its own tag. -/
def liveTags : IC → Finset String
| .fact t _ => {t}
| .notOp t _ c => insert t (liveTags c \ {c.tag})
| .andOp t _ l r => insert t (insert l.tag (insert r.tag (liveTags l ∪ liveTags r)))
| .orOp t _ l r => insert t (insert l.tag (insert r.tag (liveTags l ∪ liveTags r)))

/-- The circuit-level agreement invariant between the two backends, together
with the structural facts maintained by every build: equal gate lists and
tag dictionaries, the used qubits being exactly the register range, the root
tag mapped to the last qubit, positive width, distinct keys, in-range tag
indices, and the key set predicted by the spec. -/
def GoodPair (t : IC) (q : QiskitCircuit) (c : CirqCircuit) : Prop :=
  c.gates = q.gates ∧ c.tags = q.tags ∧
  allQubits q.gates = Finset.range q.numQubits ∧
  dictLookup q.tags t.tag = some (q.numQubits - 1) ∧
  1 ≤ q.numQubits ∧
  TagsND q.tags ∧
  (∀ p ∈ q.tags, p.2 < q.numQubits) ∧
  dictKeys q.tags = liveTags t

theorem dictLookup_dictSet_self (d : Tags) (k : String) (v : ℕ) :
    dictLookup (dictSet d k v) k = some v := by
  induction d with
  | nil => simp [dictSet, dictLookup]
  | cons p rest ih =>
      obtain ⟨k', v'⟩ := p
      by_cases h : k' = k
      · simp [dictSet, h, dictLookup]
      · simp [dictSet, h, dictLookup, ih]

theorem dictLookup_isSome_of_eq {d : Tags} {k : String} {v : ℕ}
    (h : dictLookup d k = some v) : (dictLookup d k).isSome := by
  simp [h]

theorem dictDelE_of_isSome {d : Tags} {k : String}
    (h : (dictLookup d k).isSome) : dictDelE d k = some (dictDel d k) := by
  simp [dictDelE, h]

theorem keysList_dictSet (d : Tags) (k : String) (v : ℕ) (x : String) :
    x ∈ (dictSet d k v).map Prod.fst ↔ x ∈ d.map Prod.fst ∨ x = k := by
  induction d with
  | nil => simp [dictSet]
  | cons p rest ih =>
      obtain ⟨k', v'⟩ := p
      by_cases h : k' = k
      · subst h
        by_cases hx : x = k' <;> simp [dictSet, hx]
      · by_cases hx : x = k' <;> simp [dictSet, h, hx, ih]

theorem dictKeys_dictSet (d : Tags) (k : String) (v : ℕ) :
    dictKeys (dictSet d k v) = insert k (dictKeys d) := by
  ext x
  simp only [dictKeys, List.mem_toFinset, Finset.mem_insert, keysList_dictSet]
  tauto

theorem dictDel_sublist (d : Tags) (k : String) : List.Sublist (dictDel d k) d := by
  induction d with
  | nil => simp [dictDel]
  | cons p rest ih =>
      obtain ⟨k', v'⟩ := p
      by_cases h : k' = k
      · simp [dictDel, h, List.sublist_cons_self]
      · simpa [dictDel, h] using ih.cons₂ (k', v')

theorem mem_of_mem_dictDel {d : Tags} {k : String} {p : String × ℕ}
    (h : p ∈ dictDel d k) : p ∈ d := (dictDel_sublist d k).mem h

theorem keysList_dictDel {d : Tags} (nd : TagsND d) (k : String) (x : String) :
    x ∈ (dictDel d k).map Prod.fst ↔ x ∈ d.map Prod.fst ∧ x ≠ k := by
  induction d with
  | nil => simp [dictDel]
  | cons p rest ih =>
      obtain ⟨k', v'⟩ := p
      have ndr : TagsND rest := (List.nodup_cons.mp nd).2
      by_cases h : k' = k
      · subst h
        have hk : k' ∉ rest.map Prod.fst := (List.nodup_cons.mp nd).1
        simp only [dictDel, if_pos rfl, List.map_cons, List.mem_cons]
        constructor
        · intro hx
          refine ⟨Or.inr hx, ?_⟩
          rintro rfl
          exact hk hx
        · rintro ⟨hx | hx, hne⟩
          · exact absurd hx hne
          · exact hx
      · by_cases hx : x = k'
        · subst hx
          simp only [dictDel, if_neg h, List.map_cons, List.mem_cons]
          simp [h]
        · simp [dictDel, h, hx, ih ndr]

theorem dictKeys_dictDel {d : Tags} (nd : TagsND d) (k : String) :
    dictKeys (dictDel d k) = dictKeys d \ {k} := by
  ext x
  simp [dictKeys, keysList_dictDel nd k x]

theorem keysList_dictShift (d : Tags) (n : ℕ) :
    (dictShift d n).map Prod.fst = d.map Prod.fst := by
  simp [dictShift]

theorem dictKeys_dictShift (d : Tags) (n : ℕ) :
    dictKeys (dictShift d n) = dictKeys d := by
  simp [dictKeys, keysList_dictShift]

theorem TagsND_dictSet {d : Tags} (nd : TagsND d) (k : String) (v : ℕ) :
    TagsND (dictSet d k v) := by
  induction d with
  | nil => simp [TagsND, dictSet]
  | cons p rest ih =>
      obtain ⟨k', v'⟩ := p
      obtain ⟨hk', ndr⟩ := List.nodup_cons.mp nd
      by_cases h : k' = k
      · subst h
        simp only [TagsND, dictSet, if_pos rfl, List.map_cons]
        exact List.nodup_cons.mpr ⟨hk', ndr⟩
      · simp only [TagsND, dictSet, if_neg h, List.map_cons]
        refine List.nodup_cons.mpr ⟨?_, ih ndr⟩
        intro hmem
        rcases (keysList_dictSet rest k v k').mp hmem with hin | heq
        · exact hk' hin
        · exact h heq

theorem TagsND_dictDel {d : Tags} (nd : TagsND d) (k : String) :
    TagsND (dictDel d k) :=
  List.Nodup.sublist ((dictDel_sublist d k).map Prod.fst) nd

theorem TagsND_dictShift {d : Tags} (nd : TagsND d) (n : ℕ) :
    TagsND (dictShift d n) := by
  unfold TagsND
  rw [keysList_dictShift]
  exact nd

theorem TagsND_dictMerge {a : Tags} (b : Tags) (nd : TagsND a) :
    TagsND (dictMerge a b) := by
  induction b generalizing a with
  | nil => exact nd
  | cons p rest ih => exact ih (TagsND_dictSet nd p.1 p.2)

theorem dictKeys_dictMerge (a b : Tags) :
    dictKeys (dictMerge a b) = dictKeys a ∪ dictKeys b := by
  induction b generalizing a with
  | nil => simp [dictMerge, dictKeys]
  | cons p rest ih =>
      show dictKeys (dictMerge (dictSet a p.1 p.2) rest) = _
      rw [ih, dictKeys_dictSet]
      ext x
      simp only [Finset.mem_union, Finset.mem_insert, dictKeys, List.map_cons,
        List.mem_toFinset, List.mem_cons]
      tauto

theorem mem_dictSet {d : Tags} {k : String} {v : ℕ} {p : String × ℕ}
    (h : p ∈ dictSet d k v) : p ∈ d ∨ p = (k, v) := by
  induction d with
  | nil => simpa [dictSet] using h
  | cons q rest ih =>
      obtain ⟨k', v'⟩ := q
      by_cases hk : k' = k
      · rcases (by simpa [dictSet, hk] using h : p = (k, v) ∨ p ∈ rest) with h1 | h1
        · exact Or.inr h1
        · exact Or.inl (List.mem_cons_of_mem _ h1)
      · rcases (by simpa [dictSet, hk] using h : p = (k', v') ∨ p ∈ dictSet rest k v)
          with h1 | h1
        · exact Or.inl (by simp [h1])
        · rcases ih h1 with h2 | h2
          · exact Or.inl (List.mem_cons_of_mem _ h2)
          · exact Or.inr h2

theorem mem_dictMerge {a b : Tags} {p : String × ℕ}
    (h : p ∈ dictMerge a b) : p ∈ a ∨ p ∈ b := by
  induction b generalizing a with
  | nil => exact Or.inl h
  | cons q rest ih =>
      rcases ih (a := dictSet a q.1 q.2) h with h1 | h1
      · rcases mem_dictSet h1 with h2 | h2
        · exact Or.inl h2
        · exact Or.inr (by simp [h2])
      · exact Or.inr (List.mem_cons_of_mem _ h1)

theorem mem_dictShift {d : Tags} {n : ℕ} {p : String × ℕ}
    (h : p ∈ dictShift d n) : ∃ q ∈ d, p = (q.1, q.2 + n) := by
  rcases List.mem_map.mp h with ⟨q, hq, rfl⟩
  exact ⟨q, hq, rfl⟩

theorem mem_dictKeys_of_lookup {d : Tags} {k : String} {v : ℕ}
    (h : dictLookup d k = some v) : k ∈ dictKeys d := by
  induction d with
  | nil => simp [dictLookup] at h
  | cons p rest ih =>
      obtain ⟨k', v'⟩ := p
      by_cases hk : k' = k
      · simp [dictKeys, hk]
      · have := ih (by simpa [dictLookup, hk] using h)
        simp only [dictKeys, List.map_cons, List.mem_toFinset, List.mem_cons]
        simp only [dictKeys, List.mem_toFinset] at this
        exact Or.inr this

theorem allQubits_append (a b : List Gate) :
    allQubits (a ++ b) = allQubits a ∪ allQubits b := by
  simp [allQubits, List.toFinset_append]

theorem mem_allQubits {gs : List Gate} {q : ℕ} :
    q ∈ allQubits gs ↔ ∃ g ∈ gs, q ∈ g.qubitList := by
  simp [allQubits, List.mem_flatMap]

theorem indexOf_map_succ (l : List ℕ) (a : ℕ) :
    (l.map Nat.succ).indexOf (Nat.succ a) = l.indexOf a := by
  induction l with
  | nil => rfl
  | cons x xs ih =>
      by_cases h : x = a
      · subst h
        simp [List.indexOf_cons_self]
      · rw [List.map_cons, List.indexOf_cons_ne _ (fun hh => h (Nat.succ_injective hh)),
          List.indexOf_cons_ne _ h, ih]

theorem indexOf_range {q n : ℕ} (h : q < n) : (List.range n).indexOf q = q := by
  induction n generalizing q with
  | zero => omega
  | succ n ih =>
      rw [List.range_succ_eq_map]
      cases q with
      | zero => simp [List.indexOf_cons_self]
      | succ a =>
          rw [List.indexOf_cons_ne _ (by omega), indexOf_map_succ, ih (by omega)]

theorem sortedAllQubits_eq_range {gs : List Gate} {n : ℕ}
    (h : allQubits gs = Finset.range n) : sortedAllQubits gs = List.range n := by
  have hnd : ((gs.flatMap Gate.qubitList).dedup).Nodup := List.nodup_dedup _
  have hperm : List.Perm (sortedAllQubits gs) (gs.flatMap Gate.qubitList).dedup :=
    List.perm_insertionSort _ _
  have hnd2 : (sortedAllQubits gs).Nodup := hperm.symm.nodup hnd
  have hmem : ∀ x, x ∈ sortedAllQubits gs ↔ x < n := by
    intro x
    rw [hperm.mem_iff, List.mem_dedup, ← List.mem_toFinset]
    show x ∈ allQubits gs ↔ x < n
    rw [h, Finset.mem_range]
  have hperm2 : List.Perm (sortedAllQubits gs) (List.range n) :=
    (List.perm_ext_iff_of_nodup hnd2 (List.nodup_range n)).mpr
      (fun a => by rw [hmem, List.mem_range])
  exact List.eq_of_perm_of_sorted hperm2 (List.sorted_insertionSort _ _)
    (List.sorted_le_range n)

theorem cirqNumQubits_of_range {c : CirqCircuit} {n : ℕ}
    (h : allQubits c.gates = Finset.range n) : cirqNumQubits c = n := by
  unfold cirqNumQubits
  rw [sortedAllQubits_eq_range h, List.length_range]

theorem cirqQubitMap_of_range {gs : List Gate} {n : ℕ}
    (h : allQubits gs = Finset.range n) (off : ℕ) {q : ℕ} (hq : q < n) :
    cirqQubitMap gs off q = off + q := by
  unfold cirqQubitMap
  rw [sortedAllQubits_eq_range h, indexOf_range hq]

theorem Gate.qubitList_rename (f : ℕ → ℕ) (g : Gate) :
    (g.rename f).qubitList = g.qubitList.map f := by
  cases g <;> simp [Gate.rename, Gate.qubitList]

theorem Gate.rename_congr {g : Gate} {f f' : ℕ → ℕ}
    (h : ∀ q ∈ g.qubitList, f q = f' q) : g.rename f = g.rename f' := by
  cases g <;> simp_all [Gate.rename, Gate.qubitList, List.map_congr_left]

theorem Gate.rename_id (g : Gate) : g.rename (fun q => q) = g := by
  cases g <;> simp [Gate.rename]

theorem map_rename_congr {gs : List Gate} {f f' : ℕ → ℕ}
    (h : ∀ q ∈ allQubits gs, f q = f' q) :
    gs.map (Gate.rename f) = gs.map (Gate.rename f') :=
  List.map_congr_left fun g hg =>
    Gate.rename_congr fun q hq => h q (mem_allQubits.mpr ⟨g, hg, hq⟩)

theorem allQubits_map_rename (f : ℕ → ℕ) (gs : List Gate) :
    allQubits (gs.map (Gate.rename f)) = (allQubits gs).image f := by
  ext x
  simp only [allQubits, List.mem_toFinset, List.mem_flatMap, List.mem_map,
    Finset.mem_image, Gate.qubitList_rename]
  constructor
  · rintro ⟨g', ⟨g, hg, rfl⟩, hx⟩
    rw [Gate.qubitList_rename] at hx
    rcases List.mem_map.mp hx with ⟨q, hq, rfl⟩
    exact ⟨q, ⟨g, hg, hq⟩, rfl⟩
  · rintro ⟨q, ⟨g, hg, hq⟩, rfl⟩
    exact ⟨g.rename f, ⟨g, hg, rfl⟩,
      by rw [Gate.qubitList_rename]; exact List.mem_map.mpr ⟨q, hq, rfl⟩⟩

theorem cirq_compose_zero {gs : List Gate} {n : ℕ}
    (h : allQubits gs = Finset.range n) :
    gs.map (Gate.rename (cirqQubitMap gs 0)) = gs := by
  have h1 : gs.map (Gate.rename (cirqQubitMap gs 0)) = gs.map (Gate.rename (fun q => q)) := by
    apply map_rename_congr
    intro q hq
    rw [h, Finset.mem_range] at hq
    rw [cirqQubitMap_of_range h 0 hq, Nat.zero_add]
  rw [h1]
  exact (List.map_congr_left fun g _ => Gate.rename_id g).trans (List.map_id gs)

theorem cirq_compose_offset {gs : List Gate} {n : ℕ}
    (h : allQubits gs = Finset.range n) (off : ℕ) :
    gs.map (Gate.rename (cirqQubitMap gs off)) = gs.map (Gate.rename (· + off)) := by
  apply map_rename_congr
  intro q hq
  rw [h, Finset.mem_range] at hq
  rw [cirqQubitMap_of_range h off hq, Nat.add_comm]

theorem allQubits_not_step (cert : ℚ) {cg : List Gate} {w : ℕ} (hw : 1 ≤ w)
    (h : allQubits cg = Finset.range w) :
    allQubits (cg ++
      [Gate.x (w + 2 - 3), Gate.m cert (w + 2 - 2),
       Gate.ccx (w + 2 - 3) (w + 2 - 2) (w + 2 - 1)]) = Finset.range (w + 2) := by
  rw [allQubits_append, h]
  ext q
  simp only [Finset.mem_union, Finset.mem_range, allQubits, List.flatMap_cons,
    List.flatMap_nil, Gate.qubitList, List.append_nil, List.mem_toFinset,
    List.mem_cons, List.mem_append, List.not_mem_nil, or_false]
  omega

theorem allQubits_and_step (cert : ℚ) {lg rg : List Gate} {L R : ℕ}
    (hL : 1 ≤ L) (hR : 1 ≤ R)
    (hl : allQubits lg = Finset.range L) (hr : allQubits rg = Finset.range R) :
    allQubits (lg ++ rg.map (Gate.rename (· + L)) ++
      [Gate.ccx (L - 1) (L + R - 1) (L + R + 3 - 3),
       Gate.m cert (L + R + 3 - 2),
       Gate.ccx (L + R + 3 - 3) (L + R + 3 - 2) (L + R + 3 - 1)]) =
      Finset.range (L + R + 3) := by
  rw [allQubits_append, allQubits_append, hl, allQubits_map_rename, hr]
  have himg : (Finset.range R).image (· + L) = Finset.Ico L (L + R) := by
    rw [Finset.range_eq_Ico, Finset.image_add_right_Ico, Nat.zero_add, Nat.add_comm R L]
  rw [himg]
  ext q
  simp only [Finset.mem_union, Finset.mem_range, Finset.mem_Ico, allQubits,
    List.flatMap_cons, List.flatMap_nil, Gate.qubitList, List.append_nil,
    List.mem_toFinset, List.mem_cons, List.mem_append, List.not_mem_nil, or_false]
  omega

theorem allQubits_or_step (cert : ℚ) {lg rg : List Gate} {L R : ℕ}
    (hL : 1 ≤ L) (hR : 1 ≤ R)
    (hl : allQubits lg = Finset.range L) (hr : allQubits rg = Finset.range R) :
    allQubits (lg ++ rg.map (Gate.rename (· + L)) ++
      [Gate.ccx (L - 1) (L + R - 1) (L + R + 3 - 3),
       Gate.cx (L - 1) (L + R + 3 - 3),
       Gate.cx (L + R - 1) (L + R + 3 - 3),
       Gate.m cert (L + R + 3 - 2),
       Gate.ccx (L + R + 3 - 3) (L + R + 3 - 2) (L + R + 3 - 1)]) =
      Finset.range (L + R + 3) := by
  rw [allQubits_append, allQubits_append, hl, allQubits_map_rename, hr]
  have himg : (Finset.range R).image (· + L) = Finset.Ico L (L + R) := by
    rw [Finset.range_eq_Ico, Finset.image_add_right_Ico, Nat.zero_add, Nat.add_comm R L]
  rw [himg]
  ext q
  simp only [Finset.mem_union, Finset.mem_range, Finset.mem_Ico, allQubits,
    List.flatMap_cons, List.flatMap_nil, Gate.qubitList, List.append_nil,
    List.mem_toFinset, List.mem_cons, List.mem_append, List.not_mem_nil, or_false]
  omega

theorem build_master (t : IC) :
    ∃ (qc : QiskitCircuit) (cc : CirqCircuit),
      buildQiskit t = some qc ∧ buildCirq t = some cc ∧ GoodPair t qc cc := by
  induction t with
  | fact tag cert =>
      refine ⟨⟨[(tag, 0)], 1, [Gate.m cert 0]⟩, ⟨[(tag, 0)], [Gate.m cert 0]⟩,
        rfl, ?_, rfl, rfl, ?_, ?_, le_refl 1, ?_, ?_, ?_⟩
      · show buildCirq (.fact tag cert) = _
        simp [buildCirq, dictSet]
      · show allQubits [Gate.m cert 0] = Finset.range 1
        ext q
        simp [allQubits, Gate.qubitList, Nat.lt_one_iff]
      · show dictLookup [(tag, 0)] (IC.tag (.fact tag cert)) = some (1 - 1)
        simp [IC.tag, dictLookup]
      · show TagsND [(tag, 0)]
        simp [TagsND]
      · intro p hp
        have hp' : p ∈ [(tag, 0)] := hp
        simp only [List.mem_singleton] at hp'
        show p.2 < 1
        simp [hp']
      · show dictKeys [(tag, 0)] = liveTags (.fact tag cert)
        simp [dictKeys, liveTags]
  | notOp tag cert child ih =>
      obtain ⟨qc, cc, hq, hc, hgates, htags, hAQ, hroot, hw, hnd, hbound, hkeys⟩ := ih
      have hAQc : allQubits cc.gates = Finset.range qc.numQubits := by
        rw [hgates]; exact hAQ
      have hdel : dictDelE qc.tags child.tag = some (dictDel qc.tags child.tag) :=
        dictDelE_of_isSome (dictLookup_isSome_of_eq hroot)
      have hdelc : dictDelE cc.tags child.tag = some (dictDel qc.tags child.tag) := by
        rw [htags]; exact hdel
      have hnum : cirqNumQubits cc = qc.numQubits := cirqNumQubits_of_range hAQc
      have hcompose : cc.gates.map (Gate.rename (cirqQubitMap cc.gates 0)) = qc.gates := by
        rw [cirq_compose_zero hAQc]; exact hgates
      refine ⟨⟨dictSet (dictDel qc.tags child.tag) tag (qc.numQubits + 2 - 1),
          qc.numQubits + 2,
          qc.gates ++
            [Gate.x (qc.numQubits + 2 - 3), Gate.m cert (qc.numQubits + 2 - 2),
             Gate.ccx (qc.numQubits + 2 - 3) (qc.numQubits + 2 - 2)
               (qc.numQubits + 2 - 1)]⟩,
        ⟨dictSet (dictDel qc.tags child.tag) tag (qc.numQubits + 2 - 1),
          qc.gates ++
            [Gate.x (qc.numQubits + 2 - 3), Gate.m cert (qc.numQubits + 2 - 2),
             Gate.ccx (qc.numQubits + 2 - 3) (qc.numQubits + 2 - 2)
               (qc.numQubits + 2 - 1)]⟩,
        ?_, ?_, rfl, rfl, ?_, ?_, ?_, ?_, ?_, ?_⟩
      · show buildQiskit (.notOp tag cert child) = _
        simp only [buildQiskit, hq, Option.bind_eq_bind, Option.some_bind, hdel]
      · show buildCirq (.notOp tag cert child) = _
        simp only [buildCirq, hc, Option.bind_eq_bind, Option.some_bind, hnum, hdelc, hcompose]
      · show allQubits _ = Finset.range (qc.numQubits + 2)
        exact allQubits_not_step cert hw hAQ
      · show dictLookup _ (IC.tag (.notOp tag cert child)) = some (qc.numQubits + 2 - 1)
        simp only [IC.tag]
        exact dictLookup_dictSet_self _ _ _
      · show 1 ≤ qc.numQubits + 2
        omega
      · exact TagsND_dictSet (TagsND_dictDel hnd _) _ _
      · intro p hp
        have hp' : p ∈ dictSet (dictDel qc.tags child.tag) tag (qc.numQubits + 2 - 1) := hp
        show p.2 < qc.numQubits + 2
        rcases mem_dictSet hp' with h1 | h1
        · have := hbound p (mem_of_mem_dictDel h1)
          omega
        · rw [h1]
          omega
      · show dictKeys (dictSet (dictDel qc.tags child.tag) tag (qc.numQubits + 2 - 1)) =
          liveTags (.notOp tag cert child)
        rw [dictKeys_dictSet, dictKeys_dictDel hnd, hkeys]
        simp [liveTags]
  | andOp tag cert l r ihl ihr =>
      obtain ⟨qcl, ccl, hql, hcl, hgl, htl, hAQl, hrootl, hwl, hndl, hboundl, hkeysl⟩ := ihl
      obtain ⟨qcr, ccr, hqr, hcr, hgr, htr, hAQr, hrootr, hwr, hndr, hboundr, hkeysr⟩ := ihr
      have hAQcl : allQubits ccl.gates = Finset.range qcl.numQubits := by
        rw [hgl]; exact hAQl
      have hAQcr : allQubits ccr.gates = Finset.range qcr.numQubits := by
        rw [hgr]; exact hAQr
      have hnuml : cirqNumQubits ccl = qcl.numQubits := cirqNumQubits_of_range hAQcl
      have hnumr : cirqNumQubits ccr = qcr.numQubits := cirqNumQubits_of_range hAQcr
      have hcompl : ccl.gates.map (Gate.rename (cirqQubitMap ccl.gates 0)) = qcl.gates := by
        rw [cirq_compose_zero hAQcl]; exact hgl
      have hcompr : ccr.gates.map (Gate.rename (cirqQubitMap ccr.gates qcl.numQubits)) =
          qcr.gates.map (Gate.rename (· + qcl.numQubits)) := by
        rw [cirq_compose_offset hAQcr, hgr]
      refine ⟨⟨dictSet (dictSet (dictSet
            (dictMerge qcl.tags (dictShift qcr.tags qcl.numQubits))
            l.tag (qcl.numQubits - 1))
            r.tag (qcl.numQubits + qcr.numQubits - 1))
            tag (qcl.numQubits + qcr.numQubits + 3 - 1),
          qcl.numQubits + qcr.numQubits + 3,
          qcl.gates ++ qcr.gates.map (Gate.rename (· + qcl.numQubits)) ++
            [Gate.ccx (qcl.numQubits - 1) (qcl.numQubits + qcr.numQubits - 1)
               (qcl.numQubits + qcr.numQubits + 3 - 3),
             Gate.m cert (qcl.numQubits + qcr.numQubits + 3 - 2),
             Gate.ccx (qcl.numQubits + qcr.numQubits + 3 - 3)
               (qcl.numQubits + qcr.numQubits + 3 - 2)
               (qcl.numQubits + qcr.numQubits + 3 - 1)]⟩,
        ⟨dictSet (dictSet (dictSet
            (dictMerge qcl.tags (dictShift qcr.tags qcl.numQubits))
            l.tag (qcl.numQubits - 1))
            r.tag (qcl.numQubits + qcr.numQubits - 1))
            tag (qcl.numQubits + qcr.numQubits + 3 - 1),
          qcl.gates ++ qcr.gates.map (Gate.rename (· + qcl.numQubits)) ++
            [Gate.ccx (qcl.numQubits - 1) (qcl.numQubits + qcr.numQubits - 1)
               (qcl.numQubits + qcr.numQubits + 3 - 3),
             Gate.m cert (qcl.numQubits + qcr.numQubits + 3 - 2),
             Gate.ccx (qcl.numQubits + qcr.numQubits + 3 - 3)
               (qcl.numQubits + qcr.numQubits + 3 - 2)
               (qcl.numQubits + qcr.numQubits + 3 - 1)]⟩,
        ?_, ?_, rfl, rfl, ?_, ?_, ?_, ?_, ?_, ?_⟩
      · show buildQiskit (.andOp tag cert l r) = _
        simp only [buildQiskit, hql, hqr, Option.bind_eq_bind, Option.some_bind]
      · show buildCirq (.andOp tag cert l r) = _
        simp only [buildCirq, hcl, hcr, Option.bind_eq_bind, Option.some_bind, hnuml, hnumr, htl, htr,
          hcompl, hcompr]
      · show allQubits _ = Finset.range (qcl.numQubits + qcr.numQubits + 3)
        exact allQubits_and_step cert hwl hwr hAQl hAQr
      · show dictLookup _ (IC.tag (.andOp tag cert l r)) =
          some (qcl.numQubits + qcr.numQubits + 3 - 1)
        simp only [IC.tag]
        exact dictLookup_dictSet_self _ _ _
      · show 1 ≤ qcl.numQubits + qcr.numQubits + 3
        omega
      · exact TagsND_dictSet (TagsND_dictSet (TagsND_dictSet
          (TagsND_dictMerge _ hndl) _ _) _ _) _ _
      · intro p hp
        have hp' : p ∈ dictSet (dictSet (dictSet
            (dictMerge qcl.tags (dictShift qcr.tags qcl.numQubits))
            l.tag (qcl.numQubits - 1))
            r.tag (qcl.numQubits + qcr.numQubits - 1))
            tag (qcl.numQubits + qcr.numQubits + 3 - 1) := hp
        show p.2 < qcl.numQubits + qcr.numQubits + 3
        rcases mem_dictSet hp' with h1 | h1
        · rcases mem_dictSet h1 with h2 | h2
          · rcases mem_dictSet h2 with h3 | h3
            · rcases mem_dictMerge h3 with h4 | h4
              · have := hboundl p h4
                omega
              · rcases mem_dictShift h4 with ⟨pq, hpq, rfl⟩
                have := hboundr pq hpq
                simp only
                omega
            · rw [h3]
              omega
          · rw [h2]
            omega
        · rw [h1]
          omega
      · show dictKeys (dictSet (dictSet (dictSet
            (dictMerge qcl.tags (dictShift qcr.tags qcl.numQubits))
            l.tag (qcl.numQubits - 1))
            r.tag (qcl.numQubits + qcr.numQubits - 1))
            tag (qcl.numQubits + qcr.numQubits + 3 - 1)) = liveTags (.andOp tag cert l r)
        rw [dictKeys_dictSet, dictKeys_dictSet, dictKeys_dictSet, dictKeys_dictMerge,
          dictKeys_dictShift, hkeysl, hkeysr]
        show _ = insert tag (insert l.tag (insert r.tag (liveTags l ∪ liveTags r)))
        ext x
        simp only [Finset.mem_insert, Finset.mem_union]
        tauto
  | orOp tag cert l r ihl ihr =>
      obtain ⟨qcl, ccl, hql, hcl, hgl, htl, hAQl, hrootl, hwl, hndl, hboundl, hkeysl⟩ := ihl
      obtain ⟨qcr, ccr, hqr, hcr, hgr, htr, hAQr, hrootr, hwr, hndr, hboundr, hkeysr⟩ := ihr
      have hAQcl : allQubits ccl.gates = Finset.range qcl.numQubits := by
        rw [hgl]; exact hAQl
      have hAQcr : allQubits ccr.gates = Finset.range qcr.numQubits := by
        rw [hgr]; exact hAQr
      have hnuml : cirqNumQubits ccl = qcl.numQubits := cirqNumQubits_of_range hAQcl
      have hnumr : cirqNumQubits ccr = qcr.numQubits := cirqNumQubits_of_range hAQcr
      have hcompl : ccl.gates.map (Gate.rename (cirqQubitMap ccl.gates 0)) = qcl.gates := by
        rw [cirq_compose_zero hAQcl]; exact hgl
      have hcompr : ccr.gates.map (Gate.rename (cirqQubitMap ccr.gates qcl.numQubits)) =
          qcr.gates.map (Gate.rename (· + qcl.numQubits)) := by
        rw [cirq_compose_offset hAQcr, hgr]
      refine ⟨⟨dictSet (dictSet (dictSet
            (dictMerge qcl.tags (dictShift qcr.tags qcl.numQubits))
            l.tag (qcl.numQubits - 1))
            r.tag (qcl.numQubits + qcr.numQubits - 1))
            tag (qcl.numQubits + qcr.numQubits + 3 - 1),
          qcl.numQubits + qcr.numQubits + 3,
          qcl.gates ++ qcr.gates.map (Gate.rename (· + qcl.numQubits)) ++
            [Gate.ccx (qcl.numQubits - 1) (qcl.numQubits + qcr.numQubits - 1)
               (qcl.numQubits + qcr.numQubits + 3 - 3),
             Gate.cx (qcl.numQubits - 1) (qcl.numQubits + qcr.numQubits + 3 - 3),
             Gate.cx (qcl.numQubits + qcr.numQubits - 1)
               (qcl.numQubits + qcr.numQubits + 3 - 3),
             Gate.m cert (qcl.numQubits + qcr.numQubits + 3 - 2),
             Gate.ccx (qcl.numQubits + qcr.numQubits + 3 - 3)
               (qcl.numQubits + qcr.numQubits + 3 - 2)
               (qcl.numQubits + qcr.numQubits + 3 - 1)]⟩,
        ⟨dictSet (dictSet (dictSet
            (dictMerge qcl.tags (dictShift qcr.tags qcl.numQubits))
            l.tag (qcl.numQubits - 1))
            r.tag (qcl.numQubits + qcr.numQubits - 1))
            tag (qcl.numQubits + qcr.numQubits + 3 - 1),
          qcl.gates ++ qcr.gates.map (Gate.rename (· + qcl.numQubits)) ++
            [Gate.ccx (qcl.numQubits - 1) (qcl.numQubits + qcr.numQubits - 1)
               (qcl.numQubits + qcr.numQubits + 3 - 3),
             Gate.cx (qcl.numQubits - 1) (qcl.numQubits + qcr.numQubits + 3 - 3),
             Gate.cx (qcl.numQubits + qcr.numQubits - 1)
               (qcl.numQubits + qcr.numQubits + 3 - 3),
             Gate.m cert (qcl.numQubits + qcr.numQubits + 3 - 2),
             Gate.ccx (qcl.numQubits + qcr.numQubits + 3 - 3)
               (qcl.numQubits + qcr.numQubits + 3 - 2)
               (qcl.numQubits + qcr.numQubits + 3 - 1)]⟩,
        ?_, ?_, rfl, rfl, ?_, ?_, ?_, ?_, ?_, ?_⟩
      · show buildQiskit (.orOp tag cert l r) = _
        simp only [buildQiskit, hql, hqr, Option.bind_eq_bind, Option.some_bind]
      · show buildCirq (.orOp tag cert l r) = _
        simp only [buildCirq, hcl, hcr, Option.bind_eq_bind, Option.some_bind, hnuml, hnumr, htl, htr,
          hcompl, hcompr]
      · show allQubits _ = Finset.range (qcl.numQubits + qcr.numQubits + 3)
        exact allQubits_or_step cert hwl hwr hAQl hAQr
      · show dictLookup _ (IC.tag (.orOp tag cert l r)) =
          some (qcl.numQubits + qcr.numQubits + 3 - 1)
        simp only [IC.tag]
        exact dictLookup_dictSet_self _ _ _
      · show 1 ≤ qcl.numQubits + qcr.numQubits + 3
        omega
      · exact TagsND_dictSet (TagsND_dictSet (TagsND_dictSet
          (TagsND_dictMerge _ hndl) _ _) _ _) _ _
      · intro p hp
        have hp' : p ∈ dictSet (dictSet (dictSet
            (dictMerge qcl.tags (dictShift qcr.tags qcl.numQubits))
            l.tag (qcl.numQubits - 1))
            r.tag (qcl.numQubits + qcr.numQubits - 1))
            tag (qcl.numQubits + qcr.numQubits + 3 - 1) := hp
        show p.2 < qcl.numQubits + qcr.numQubits + 3
        rcases mem_dictSet hp' with h1 | h1
        · rcases mem_dictSet h1 with h2 | h2
          · rcases mem_dictSet h2 with h3 | h3
            · rcases mem_dictMerge h3 with h4 | h4
              · have := hboundl p h4
                omega
              · rcases mem_dictShift h4 with ⟨pq, hpq, rfl⟩
                have := hboundr pq hpq
                simp only
                omega
            · rw [h3]
              omega
          · rw [h2]
            omega
        · rw [h1]
          omega
      · show dictKeys (dictSet (dictSet (dictSet
            (dictMerge qcl.tags (dictShift qcr.tags qcl.numQubits))
            l.tag (qcl.numQubits - 1))
            r.tag (qcl.numQubits + qcr.numQubits - 1))
            tag (qcl.numQubits + qcr.numQubits + 3 - 1)) = liveTags (.orOp tag cert l r)
        rw [dictKeys_dictSet, dictKeys_dictSet, dictKeys_dictSet, dictKeys_dictMerge,
          dictKeys_dictShift, hkeysl, hkeysr]
        show _ = insert tag (insert l.tag (insert r.tag (liveTags l ∪ liveTags r)))
        ext x
        simp only [Finset.mem_insert, Finset.mem_union]
        tauto
example :
    buildCirq (.notOp "n" (1/2) (.fact "a" 1)) =
      some { tags := [("n", 2)],
             gates := [Gate.m 1 0, Gate.x 0, Gate.m (1/2) 1, Gate.ccx 0 1 2] } := by
  rfl

theorem countOnesAt_le_total (counts : Counts) (q : ℕ) :
    countOnesAt counts q ≤ countsTotal counts := by
  unfold countOnesAt countsTotal
  induction counts with
  | nil => simp
  | cons p rest ih =>
      simp only [List.map_cons, List.sum_cons]
      have hle : (if p.1.getD q false then p.2 else 0) ≤ p.2 := by
        split <;> omega
      omega

theorem shotOnesAt_le_length (keys : List ℕ) (measures : List (List Bool)) (q : ℕ) :
    shotOnesAt keys measures q ≤ measures.length := by
  unfold shotOnesAt
  induction measures with
  | nil => simp
  | cons s rest ih =>
      simp only [List.map_cons, List.sum_cons, List.length_cons]
      have hle : (if s.getD (keys.indexOf q) false then 1 else 0) ≤ 1 := by
        split <;> omega
      omega

theorem stateOnZero_buildM (c : ℝ) :
    stateOnZero (buildMOperator c) =
      ![Real.cos (c * Real.pi / 2), Real.sin (c * Real.pi / 2)] := by
  funext i
  fin_cases i <;>
    simp [stateOnZero, buildMOperator, Matrix.mulVec, Matrix.dotProduct,
      Fin.sum_univ_two]

theorem stateOnZero_mGate (c : ℝ) :
    stateOnZero (mGateUnitary c) =
      ![Real.cos (c * Real.pi / 2) / Real.sqrt 2,
        Real.sin (c * Real.pi / 2) / Real.sqrt 2] := by
  funext i
  fin_cases i <;>
    simp [stateOnZero, mGateUnitary, Matrix.mulVec, Matrix.dotProduct,
      Fin.sum_univ_two]

theorem born1_buildM (c : ℝ) :
    born1 (stateOnZero (buildMOperator c)) = Real.sin (c * Real.pi / 2) ^ 2 := by
  rw [stateOnZero_buildM]
  unfold born1
  simp only [Matrix.cons_val_one, Matrix.head_cons, Matrix.cons_val_zero]
  rw [Real.cos_sq_add_sin_sq, div_one]

theorem born1_mGate (c : ℝ) :
    born1 (stateOnZero (mGateUnitary c)) = Real.sin (c * Real.pi / 2) ^ 2 := by
  rw [stateOnZero_mGate]
  unfold born1
  simp only [Matrix.cons_val_one, Matrix.head_cons, Matrix.cons_val_zero]
  rw [div_pow, div_pow, Real.sq_sqrt (by norm_num : (0:ℝ) ≤ 2), div_add_div_same,
    Real.cos_sq_add_sin_sq]
  field_simp

/-- C1, counterexample: for the tree `NotOperator("n", 0, Fact("a", 0))` the
child fragment has width `w = 1`, but the built circuit is
`[M(0) 0, X 0, M(0) 1, CCX 0 1 2]`: the X gate is on qubit `w - 1 = 0`, not
on qubit `w = 1` as the claim states, so the claimed gate placement is
false. -/
theorem C1_counterexample :
    (buildQiskit (.fact "a" 0)).map QiskitCircuit.numQubits = some 1 ∧
    (buildQiskit (.notOp "n" 0 (.fact "a" 0))).map QiskitCircuit.gates =
      some [Gate.m 0 0, Gate.x 0, Gate.m 0 1, Gate.ccx 0 1 2] ∧
    Gate.x 1 ∉ [Gate.m 0 0, Gate.x 0, Gate.m 0 1, Gate.ccx 0 1 2] :=
  ⟨rfl, rfl, by decide⟩

/-- C1, amended: for every tree, building a `NotOperator` whose child
fragment has width `w` returns a fragment of width `w + 2` in which the
child circuit occupies qubits `[0, w)`, an X gate is applied on qubit
`w - 1` (the child's last qubit), the Certainty Gate for the operator's
certainty is applied on qubit `w`, and a Toffoli is applied with controls
`(w - 1, w)` and target the last qubit `w + 1`, in both backends. -/
theorem C1_not_build (tag : String) (cert : ℚ) (child : IC) :
    ∃ (qchild : QiskitCircuit) (cchild : CirqCircuit)
      (qp : QiskitCircuit) (cp : CirqCircuit),
      buildQiskit child = some qchild ∧ buildCirq child = some cchild ∧
      buildQiskit (.notOp tag cert child) = some qp ∧
      buildCirq (.notOp tag cert child) = some cp ∧
      1 ≤ qchild.numQubits ∧
      qp.numQubits = qchild.numQubits + 2 ∧
      cirqNumQubits cp = qchild.numQubits + 2 ∧
      allQubits qchild.gates = Finset.range qchild.numQubits ∧
      qp.gates = qchild.gates ++
        [Gate.x (qchild.numQubits - 1), Gate.m cert qchild.numQubits,
         Gate.ccx (qchild.numQubits - 1) qchild.numQubits (qchild.numQubits + 1)] ∧
      cp.gates = qp.gates ∧ cchild.gates = qchild.gates := by
  obtain ⟨qc, cc, hq, hc, hgates, htags, hAQ, hroot, hw, hnd, hbound, hkeys⟩ :=
    build_master child
  have hAQc : allQubits cc.gates = Finset.range qc.numQubits := by
    rw [hgates]; exact hAQ
  have hdel : dictDelE qc.tags child.tag = some (dictDel qc.tags child.tag) :=
    dictDelE_of_isSome (dictLookup_isSome_of_eq hroot)
  have hdelc : dictDelE cc.tags child.tag = some (dictDel qc.tags child.tag) := by
    rw [htags]; exact hdel
  have hnum : cirqNumQubits cc = qc.numQubits := cirqNumQubits_of_range hAQc
  have hcompose : cc.gates.map (Gate.rename (cirqQubitMap cc.gates 0)) = qc.gates := by
    rw [cirq_compose_zero hAQc]; exact hgates
  have e3 : qc.numQubits + 2 - 3 = qc.numQubits - 1 := by omega
  have e2 : qc.numQubits + 2 - 2 = qc.numQubits := by omega
  have e1 : qc.numQubits + 2 - 1 = qc.numQubits + 1 := by omega
  have hqp : buildQiskit (.notOp tag cert child) = some
      ⟨dictSet (dictDel qc.tags child.tag) tag (qc.numQubits + 1),
       qc.numQubits + 2,
       qc.gates ++
         [Gate.x (qc.numQubits - 1), Gate.m cert qc.numQubits,
          Gate.ccx (qc.numQubits - 1) qc.numQubits (qc.numQubits + 1)]⟩ := by
    simp only [buildQiskit, hq, Option.bind_eq_bind, Option.some_bind, hdel]
    rw [e3, e2, e1]
  have hcp : buildCirq (.notOp tag cert child) = some
      ⟨dictSet (dictDel qc.tags child.tag) tag (qc.numQubits + 1),
       qc.gates ++
         [Gate.x (qc.numQubits - 1), Gate.m cert qc.numQubits,
          Gate.ccx (qc.numQubits - 1) qc.numQubits (qc.numQubits + 1)]⟩ := by
    simp only [buildCirq, hc, Option.bind_eq_bind, Option.some_bind, hnum, hdelc,
      hcompose]
    rw [e3, e2, e1]
  have hAQp : allQubits (qc.gates ++
      [Gate.x (qc.numQubits - 1), Gate.m cert qc.numQubits,
       Gate.ccx (qc.numQubits - 1) qc.numQubits (qc.numQubits + 1)]) =
      Finset.range (qc.numQubits + 2) := by
    have := allQubits_not_step cert hw hAQ
    rw [e3, e2, e1] at this
    exact this
  exact ⟨qc, cc, _, _, hq, hc, hqp, hcp, hw, rfl,
    cirqNumQubits_of_range hAQp, hAQ, rfl, rfl, hgates⟩

/-- C2: for every `AndOperator` whose children build to fragments of widths
`L` and `R`, `build_and` returns a fragment of width `L + R + 3` whose tag
map is the union of the left tags and the right tags shifted by `L`, with
the left child's tag overwritten to `L - 1`, the right child's tag
overwritten to `L + R - 1`, and the operator's own tag set to `L + R + 2`;
the gates applied after composing the children are
`Toffoli(L-1, L+R-1 -> L+R)`, the Certainty Gate on qubit `L + R + 1`, and
`Toffoli(L+R, L+R+1 -> L+R+2)`, in both backends. -/
theorem C2_and_build (tag : String) (cert : ℚ) (l r : IC) :
    ∃ (ql qr qp : QiskitCircuit) (cl cr cp : CirqCircuit),
      buildQiskit l = some ql ∧ buildQiskit r = some qr ∧
      buildCirq l = some cl ∧ buildCirq r = some cr ∧
      buildQiskit (.andOp tag cert l r) = some qp ∧
      buildCirq (.andOp tag cert l r) = some cp ∧
      qp.numQubits = ql.numQubits + qr.numQubits + 3 ∧
      cirqNumQubits cp = ql.numQubits + qr.numQubits + 3 ∧
      qp.tags = dictSet (dictSet (dictSet
          (dictMerge ql.tags (dictShift qr.tags ql.numQubits))
          l.tag (ql.numQubits - 1))
          r.tag (ql.numQubits + qr.numQubits - 1))
          tag (ql.numQubits + qr.numQubits + 2) ∧
      dictLookup qp.tags tag = some (ql.numQubits + qr.numQubits + 2) ∧
      qp.gates = ql.gates ++ qr.gates.map (Gate.rename (· + ql.numQubits)) ++
        [Gate.ccx (ql.numQubits - 1) (ql.numQubits + qr.numQubits - 1)
           (ql.numQubits + qr.numQubits),
         Gate.m cert (ql.numQubits + qr.numQubits + 1),
         Gate.ccx (ql.numQubits + qr.numQubits) (ql.numQubits + qr.numQubits + 1)
           (ql.numQubits + qr.numQubits + 2)] ∧
      cp.gates = qp.gates ∧ cp.tags = qp.tags := by
  obtain ⟨qcl, ccl, hql, hcl, hgl, htl, hAQl, hrootl, hwl, hndl, hboundl, hkeysl⟩ :=
    build_master l
  obtain ⟨qcr, ccr, hqr, hcr, hgr, htr, hAQr, hrootr, hwr, hndr, hboundr, hkeysr⟩ :=
    build_master r
  have hAQcl : allQubits ccl.gates = Finset.range qcl.numQubits := by
    rw [hgl]; exact hAQl
  have hAQcr : allQubits ccr.gates = Finset.range qcr.numQubits := by
    rw [hgr]; exact hAQr
  have hnuml : cirqNumQubits ccl = qcl.numQubits := cirqNumQubits_of_range hAQcl
  have hnumr : cirqNumQubits ccr = qcr.numQubits := cirqNumQubits_of_range hAQcr
  have hcompl : ccl.gates.map (Gate.rename (cirqQubitMap ccl.gates 0)) = qcl.gates := by
    rw [cirq_compose_zero hAQcl]; exact hgl
  have hcompr : ccr.gates.map (Gate.rename (cirqQubitMap ccr.gates qcl.numQubits)) =
      qcr.gates.map (Gate.rename (· + qcl.numQubits)) := by
    rw [cirq_compose_offset hAQcr, hgr]
  have e3 : qcl.numQubits + qcr.numQubits + 3 - 3 = qcl.numQubits + qcr.numQubits := by
    omega
  have e2 : qcl.numQubits + qcr.numQubits + 3 - 2 =
      qcl.numQubits + qcr.numQubits + 1 := by omega
  have e1 : qcl.numQubits + qcr.numQubits + 3 - 1 =
      qcl.numQubits + qcr.numQubits + 2 := by omega
  have hqp : buildQiskit (.andOp tag cert l r) = some
      ⟨dictSet (dictSet (dictSet
          (dictMerge qcl.tags (dictShift qcr.tags qcl.numQubits))
          l.tag (qcl.numQubits - 1))
          r.tag (qcl.numQubits + qcr.numQubits - 1))
          tag (qcl.numQubits + qcr.numQubits + 2),
        qcl.numQubits + qcr.numQubits + 3,
        qcl.gates ++ qcr.gates.map (Gate.rename (· + qcl.numQubits)) ++
          [Gate.ccx (qcl.numQubits - 1) (qcl.numQubits + qcr.numQubits - 1)
             (qcl.numQubits + qcr.numQubits),
           Gate.m cert (qcl.numQubits + qcr.numQubits + 1),
           Gate.ccx (qcl.numQubits + qcr.numQubits)
             (qcl.numQubits + qcr.numQubits + 1)
             (qcl.numQubits + qcr.numQubits + 2)]⟩ := by
    simp only [buildQiskit, hql, hqr, Option.bind_eq_bind, Option.some_bind]
    rw [e3, e2, e1]
  have hcp : buildCirq (.andOp tag cert l r) = some
      ⟨dictSet (dictSet (dictSet
          (dictMerge qcl.tags (dictShift qcr.tags qcl.numQubits))
          l.tag (qcl.numQubits - 1))
          r.tag (qcl.numQubits + qcr.numQubits - 1))
          tag (qcl.numQubits + qcr.numQubits + 2),
        qcl.gates ++ qcr.gates.map (Gate.rename (· + qcl.numQubits)) ++
          [Gate.ccx (qcl.numQubits - 1) (qcl.numQubits + qcr.numQubits - 1)
             (qcl.numQubits + qcr.numQubits),
           Gate.m cert (qcl.numQubits + qcr.numQubits + 1),
           Gate.ccx (qcl.numQubits + qcr.numQubits)
             (qcl.numQubits + qcr.numQubits + 1)
             (qcl.numQubits + qcr.numQubits + 2)]⟩ := by
    simp only [buildCirq, hcl, hcr, Option.bind_eq_bind, Option.some_bind, hnuml,
      hnumr, htl, htr, hcompl, hcompr]
    rw [e3, e2, e1]
  have hAQp : allQubits (qcl.gates ++
      qcr.gates.map (Gate.rename (· + qcl.numQubits)) ++
      [Gate.ccx (qcl.numQubits - 1) (qcl.numQubits + qcr.numQubits - 1)
         (qcl.numQubits + qcr.numQubits),
       Gate.m cert (qcl.numQubits + qcr.numQubits + 1),
       Gate.ccx (qcl.numQubits + qcr.numQubits) (qcl.numQubits + qcr.numQubits + 1)
         (qcl.numQubits + qcr.numQubits + 2)]) =
      Finset.range (qcl.numQubits + qcr.numQubits + 3) := by
    have := allQubits_and_step cert hwl hwr hAQl hAQr
    rw [e3, e2, e1] at this
    exact this
  exact ⟨qcl, qcr, _, ccl, ccr, _, hql, hqr, hcl, hcr, hqp, hcp, rfl,
    cirqNumQubits_of_range hAQp, rfl, dictLookup_dictSet_self _ _ _, rfl, rfl, rfl⟩

/-- C3: for every `OrOperator`, `build_or` produces exactly the
`AndOperator` construction up through the first Toffoli into the ancilla at
`L + R` (same child composition, same tag map), then additionally applies a
controlled-NOT from qubit `L - 1` and one from qubit `L + R - 1` to that
ancilla, then the Certainty Gate on the next qubit and the final Toffoli
into the last qubit, with the operator's tag mapped to the last qubit, in
both backends. -/
theorem C3_or_build (tag : String) (cert : ℚ) (l r : IC) :
    ∃ (ql qr qa qo : QiskitCircuit) (ca co : CirqCircuit) (A : List Gate),
      buildQiskit l = some ql ∧ buildQiskit r = some qr ∧
      buildQiskit (.andOp tag cert l r) = some qa ∧
      buildQiskit (.orOp tag cert l r) = some qo ∧
      buildCirq (.andOp tag cert l r) = some ca ∧
      buildCirq (.orOp tag cert l r) = some co ∧
      A = ql.gates ++ qr.gates.map (Gate.rename (· + ql.numQubits)) ++
        [Gate.ccx (ql.numQubits - 1) (ql.numQubits + qr.numQubits - 1)
           (ql.numQubits + qr.numQubits)] ∧
      qa.gates = A ++
        [Gate.m cert (ql.numQubits + qr.numQubits + 1),
         Gate.ccx (ql.numQubits + qr.numQubits) (ql.numQubits + qr.numQubits + 1)
           (ql.numQubits + qr.numQubits + 2)] ∧
      qo.gates = A ++
        [Gate.cx (ql.numQubits - 1) (ql.numQubits + qr.numQubits),
         Gate.cx (ql.numQubits + qr.numQubits - 1) (ql.numQubits + qr.numQubits)] ++
        [Gate.m cert (ql.numQubits + qr.numQubits + 1),
         Gate.ccx (ql.numQubits + qr.numQubits) (ql.numQubits + qr.numQubits + 1)
           (ql.numQubits + qr.numQubits + 2)] ∧
      qo.tags = qa.tags ∧
      qo.numQubits = qa.numQubits ∧
      dictLookup qo.tags tag = some (qo.numQubits - 1) ∧
      co.gates = qo.gates ∧ co.tags = qo.tags := by
  obtain ⟨qcl, ccl, hql, hcl, hgl, htl, hAQl, hrootl, hwl, hndl, hboundl, hkeysl⟩ :=
    build_master l
  obtain ⟨qcr, ccr, hqr, hcr, hgr, htr, hAQr, hrootr, hwr, hndr, hboundr, hkeysr⟩ :=
    build_master r
  have hAQcl : allQubits ccl.gates = Finset.range qcl.numQubits := by
    rw [hgl]; exact hAQl
  have hAQcr : allQubits ccr.gates = Finset.range qcr.numQubits := by
    rw [hgr]; exact hAQr
  have hnuml : cirqNumQubits ccl = qcl.numQubits := cirqNumQubits_of_range hAQcl
  have hnumr : cirqNumQubits ccr = qcr.numQubits := cirqNumQubits_of_range hAQcr
  have hcompl : ccl.gates.map (Gate.rename (cirqQubitMap ccl.gates 0)) = qcl.gates := by
    rw [cirq_compose_zero hAQcl]; exact hgl
  have hcompr : ccr.gates.map (Gate.rename (cirqQubitMap ccr.gates qcl.numQubits)) =
      qcr.gates.map (Gate.rename (· + qcl.numQubits)) := by
    rw [cirq_compose_offset hAQcr, hgr]
  have e3 : qcl.numQubits + qcr.numQubits + 3 - 3 = qcl.numQubits + qcr.numQubits := by
    omega
  have e2 : qcl.numQubits + qcr.numQubits + 3 - 2 =
      qcl.numQubits + qcr.numQubits + 1 := by omega
  have e1 : qcl.numQubits + qcr.numQubits + 3 - 1 =
      qcl.numQubits + qcr.numQubits + 2 := by omega
  have hqa : buildQiskit (.andOp tag cert l r) = some
      ⟨dictSet (dictSet (dictSet
          (dictMerge qcl.tags (dictShift qcr.tags qcl.numQubits))
          l.tag (qcl.numQubits - 1))
          r.tag (qcl.numQubits + qcr.numQubits - 1))
          tag (qcl.numQubits + qcr.numQubits + 2),
        qcl.numQubits + qcr.numQubits + 3,
        qcl.gates ++ qcr.gates.map (Gate.rename (· + qcl.numQubits)) ++
          [Gate.ccx (qcl.numQubits - 1) (qcl.numQubits + qcr.numQubits - 1)
             (qcl.numQubits + qcr.numQubits),
           Gate.m cert (qcl.numQubits + qcr.numQubits + 1),
           Gate.ccx (qcl.numQubits + qcr.numQubits)
             (qcl.numQubits + qcr.numQubits + 1)
             (qcl.numQubits + qcr.numQubits + 2)]⟩ := by
    simp only [buildQiskit, hql, hqr, Option.bind_eq_bind, Option.some_bind]
    rw [e3, e2, e1]
  have hqo : buildQiskit (.orOp tag cert l r) = some
      ⟨dictSet (dictSet (dictSet
          (dictMerge qcl.tags (dictShift qcr.tags qcl.numQubits))
          l.tag (qcl.numQubits - 1))
          r.tag (qcl.numQubits + qcr.numQubits - 1))
          tag (qcl.numQubits + qcr.numQubits + 2),
        qcl.numQubits + qcr.numQubits + 3,
        qcl.gates ++ qcr.gates.map (Gate.rename (· + qcl.numQubits)) ++
          [Gate.ccx (qcl.numQubits - 1) (qcl.numQubits + qcr.numQubits - 1)
             (qcl.numQubits + qcr.numQubits),
           Gate.cx (qcl.numQubits - 1) (qcl.numQubits + qcr.numQubits),
           Gate.cx (qcl.numQubits + qcr.numQubits - 1)
             (qcl.numQubits + qcr.numQubits),
           Gate.m cert (qcl.numQubits + qcr.numQubits + 1),
           Gate.ccx (qcl.numQubits + qcr.numQubits)
             (qcl.numQubits + qcr.numQubits + 1)
             (qcl.numQubits + qcr.numQubits + 2)]⟩ := by
    simp only [buildQiskit, hql, hqr, Option.bind_eq_bind, Option.some_bind]
    rw [e3, e2, e1]
  have hca : buildCirq (.andOp tag cert l r) = some
      ⟨dictSet (dictSet (dictSet
          (dictMerge qcl.tags (dictShift qcr.tags qcl.numQubits))
          l.tag (qcl.numQubits - 1))
          r.tag (qcl.numQubits + qcr.numQubits - 1))
          tag (qcl.numQubits + qcr.numQubits + 2),
        qcl.gates ++ qcr.gates.map (Gate.rename (· + qcl.numQubits)) ++
          [Gate.ccx (qcl.numQubits - 1) (qcl.numQubits + qcr.numQubits - 1)
             (qcl.numQubits + qcr.numQubits),
           Gate.m cert (qcl.numQubits + qcr.numQubits + 1),
           Gate.ccx (qcl.numQubits + qcr.numQubits)
             (qcl.numQubits + qcr.numQubits + 1)
             (qcl.numQubits + qcr.numQubits + 2)]⟩ := by
    simp only [buildCirq, hcl, hcr, Option.bind_eq_bind, Option.some_bind, hnuml,
      hnumr, htl, htr, hcompl, hcompr]
    rw [e3, e2, e1]
  have hco : buildCirq (.orOp tag cert l r) = some
      ⟨dictSet (dictSet (dictSet
          (dictMerge qcl.tags (dictShift qcr.tags qcl.numQubits))
          l.tag (qcl.numQubits - 1))
          r.tag (qcl.numQubits + qcr.numQubits - 1))
          tag (qcl.numQubits + qcr.numQubits + 2),
        qcl.gates ++ qcr.gates.map (Gate.rename (· + qcl.numQubits)) ++
          [Gate.ccx (qcl.numQubits - 1) (qcl.numQubits + qcr.numQubits - 1)
             (qcl.numQubits + qcr.numQubits),
           Gate.cx (qcl.numQubits - 1) (qcl.numQubits + qcr.numQubits),
           Gate.cx (qcl.numQubits + qcr.numQubits - 1)
             (qcl.numQubits + qcr.numQubits),
           Gate.m cert (qcl.numQubits + qcr.numQubits + 1),
           Gate.ccx (qcl.numQubits + qcr.numQubits)
             (qcl.numQubits + qcr.numQubits + 1)
             (qcl.numQubits + qcr.numQubits + 2)]⟩ := by
    simp only [buildCirq, hcl, hcr, Option.bind_eq_bind, Option.some_bind, hnuml,
      hnumr, htl, htr, hcompl, hcompr]
    rw [e3, e2, e1]
  refine ⟨qcl, qcr, _, _, _, _, _, hql, hqr, hqa, hqo, hca, hco, rfl, ?_, ?_, rfl,
    rfl, dictLookup_dictSet_self _ _ _, rfl, rfl⟩
  · simp [List.append_assoc]
  · simp [List.append_assoc]

/-- C4, counterexample: at certainty 0 the Qiskit matrix has entry
`(0,0) = cos 0 = 1` while the Cirq `_unitary_` has entry `1 / sqrt 2`, so
the two backends do not apply the same matrix. -/
theorem C4_counterexample :
    buildMOperator 0 0 0 = 1 ∧ mGateUnitary 0 0 0 = 1 / Real.sqrt 2 ∧
    buildMOperator 0 ≠ mGateUnitary 0 := by
  have h1 : buildMOperator 0 0 0 = 1 := by
    simp [buildMOperator]
  have h2 : mGateUnitary 0 0 0 = 1 / Real.sqrt 2 := by
    simp [mGateUnitary]
  refine ⟨h1, h2, ?_⟩
  intro h
  have hentry : buildMOperator 0 0 0 = mGateUnitary 0 0 0 := by rw [h]
  rw [h1, h2] at hentry
  have hs : Real.sqrt 2 ≠ 0 := by positivity
  field_simp at hentry

/-- C4, amended: for every certainty c the Qiskit backend's Certainty Gate
is the matrix `[[cos α, sin α], [sin α, -cos α]]` with `α = c·π/2`, while
the Cirq backend's gate matrix is that same matrix multiplied by the global
scalar `1/√2` — the same matrix only up to this scalar factor, not
entry-for-entry. -/
theorem C4_m_matrices (c : ℝ) :
    buildMOperator c =
      Matrix.of ![![Real.cos (c * Real.pi / 2), Real.sin (c * Real.pi / 2)],
                  ![Real.sin (c * Real.pi / 2), -Real.cos (c * Real.pi / 2)]] ∧
    mGateUnitary c = (Real.sqrt 2)⁻¹ • buildMOperator c := by
  constructor
  · rfl
  · ext i j
    fin_cases i <;> fin_cases j <;>
      simp [buildMOperator, mGateUnitary, Matrix.smul_apply, smul_eq_mul,
        div_eq_inv_mul]

/-- C5: after any build, the returned fragment's tag map contains only
indices strictly below the fragment's qubit count, and its key set equals
the spec's live-tag set (`liveTags`): the root tag, the AND/OR child tags
still live, minus every tag deleted by an enclosing NOT.  Both backends
carry the same tag map and width. -/
theorem C5_tag_invariant (t : IC) :
    ∃ (qc : QiskitCircuit) (cc : CirqCircuit),
      buildQiskit t = some qc ∧ buildCirq t = some cc ∧
      (∀ p ∈ qc.tags, p.2 < qc.numQubits) ∧
      dictKeys qc.tags = liveTags t ∧
      cc.tags = qc.tags ∧ cirqNumQubits cc = qc.numQubits ∧
      (∀ p ∈ cc.tags, p.2 < cirqNumQubits cc) := by
  obtain ⟨qc, cc, hq, hc, hgates, htags, hAQ, hroot, hw, hnd, hbound, hkeys⟩ :=
    build_master t
  have hnum : cirqNumQubits cc = qc.numQubits :=
    cirqNumQubits_of_range (by rw [hgates]; exact hAQ)
  refine ⟨qc, cc, hq, hc, hbound, hkeys, htags, hnum, ?_⟩
  intro p hp
  rw [hnum]
  rw [htags] at hp
  exact hbound p hp

/-- C7: for every tree, building it with `QiskitPlatform` and with
`CirqPlatform` yields fragments with the same qubit count and identical
tag-to-index maps. -/
theorem C7_backends_agree (t : IC) :
    (buildQiskit t).map QiskitCircuit.numQubits = (buildCirq t).map cirqNumQubits ∧
    (buildQiskit t).map QiskitCircuit.tags = (buildCirq t).map CirqCircuit.tags := by
  obtain ⟨qc, cc, hq, hc, hgates, htags, hAQ, _, _, _, _, _⟩ := build_master t
  have hnum : cirqNumQubits cc = qc.numQubits :=
    cirqNumQubits_of_range (by rw [hgates]; exact hAQ)
  rw [hq, hc]
  constructor
  · simp [hnum]
  · simp [htags]

/-- C9: `execute` is not free of effects on its argument: in both backends
it appends a measurement over every qubit to the passed fragment's built
circuit (modelled by explicit state passing), so the fragment is changed,
and a second `execute` call on the same fragment operates on a circuit that
already contains a measurement. -/
theorem C9_execute_mutates (qc : QiskitCircuit) (cc : CirqCircuit) :
    (qiskitMeasureAll qc).gates = qc.gates ++ [Gate.meas (List.range qc.numQubits)] ∧
    qiskitMeasureAll qc ≠ qc ∧
    Gate.meas (List.range qc.numQubits) ∈ (qiskitMeasureAll qc).gates ∧
    (qiskitMeasureAll (qiskitMeasureAll qc)).gates =
      qc.gates ++ [Gate.meas (List.range qc.numQubits)] ++
        [Gate.meas (List.range qc.numQubits)] ∧
    (cirqMeasureAll cc).gates = cc.gates ++ [Gate.meas (sortedAllQubits cc.gates)] ∧
    cirqMeasureAll cc ≠ cc ∧
    Gate.meas (sortedAllQubits cc.gates) ∈ (cirqMeasureAll cc).gates := by
  refine ⟨rfl, ?_, by simp [qiskitMeasureAll], rfl, rfl, ?_, by simp [cirqMeasureAll]⟩
  · intro h
    have := congrArg (fun c => c.gates.length) h
    simp [qiskitMeasureAll] at this
  · intro h
    have := congrArg (fun c => c.gates.length) h
    simp [cirqMeasureAll] at this

/-- C10: for every tree, the built fragment maps the tree's root tag to the
last qubit index (width - 1, which is 0 for a single Fact), in both
backends; consequently the `del tags[child.tag]` in `build_not` always
finds its key, and building a NOT over any tree never fails. -/
theorem C10_root_tag (t : IC) :
    ∃ (qc : QiskitCircuit) (cc : CirqCircuit),
      buildQiskit t = some qc ∧ buildCirq t = some cc ∧
      dictLookup qc.tags t.tag = some (qc.numQubits - 1) ∧
      cc.tags = qc.tags ∧
      dictDelE qc.tags t.tag = some (dictDel qc.tags t.tag) ∧
      (∀ (tag : String) (cert : ℚ), (buildQiskit (.notOp tag cert t)).isSome ∧
        (buildCirq (.notOp tag cert t)).isSome) := by
  obtain ⟨qc, cc, hq, hc, hgates, htags, hAQ, hroot, hw, _, _, _⟩ := build_master t
  refine ⟨qc, cc, hq, hc, hroot, htags,
    dictDelE_of_isSome (dictLookup_isSome_of_eq hroot), ?_⟩
  intro tag cert
  obtain ⟨qp, cp, hqp, hcp, _⟩ := build_master (.notOp tag cert t)
  exact ⟨by rw [hqp]; rfl, by rw [hcp]; rfl⟩

/-- C8: for a single-Fact tree with certainty c, the built fragment (in both
backends) is the one-qubit circuit holding only the M gate, and the Born
probability of measuring that qubit in state 1 — with the probability
normalization a sampling simulator applies — is exactly `sin²(c·π/2)`, for
both backends' gate matrices; in particular certainty 0 gives probability 0,
certainty 1 gives probability 1, and certainty 1/2 gives probability 1/2.
(The finite-sample "within sampling tolerance" statement is idealized to the
exact underlying distribution.) -/
theorem C8_fact_probability (tag : String) (cq : ℚ) :
    buildQiskit (.fact tag cq) = some ⟨[(tag, 0)], 1, [Gate.m cq 0]⟩ ∧
    buildCirq (.fact tag cq) = some ⟨[(tag, 0)], [Gate.m cq 0]⟩ ∧
    born1 (stateOnZero (buildMOperator (cq : ℝ))) =
      Real.sin ((cq : ℝ) * Real.pi / 2) ^ 2 ∧
    born1 (stateOnZero (mGateUnitary (cq : ℝ))) =
      Real.sin ((cq : ℝ) * Real.pi / 2) ^ 2 ∧
    born1 (stateOnZero (buildMOperator 0)) = 0 ∧
    born1 (stateOnZero (buildMOperator 1)) = 1 ∧
    born1 (stateOnZero (buildMOperator (1/2))) = 1/2 ∧
    born1 (stateOnZero (mGateUnitary 0)) = 0 ∧
    born1 (stateOnZero (mGateUnitary 1)) = 1 ∧
    born1 (stateOnZero (mGateUnitary (1/2))) = 1/2 := by
  have half : ((1:ℝ)/2) * Real.pi / 2 = Real.pi / 4 := by ring
  refine ⟨rfl, ?_, born1_buildM _, born1_mGate _, ?_, ?_, ?_, ?_, ?_, ?_⟩
  · show buildCirq (.fact tag cq) = _
    simp [buildCirq, dictSet]
  · rw [born1_buildM]
    simp
  · rw [born1_buildM]
    norm_num [Real.sin_pi_div_two]
  · rw [born1_buildM, half, Real.sin_pi_div_four, div_pow,
      Real.sq_sqrt (by norm_num : (0:ℝ) ≤ 2)]
    norm_num
  · rw [born1_mGate]
    simp
  · rw [born1_mGate]
    norm_num [Real.sin_pi_div_two]
  · rw [born1_mGate, half, Real.sin_pi_div_four, div_pow,
      Real.sq_sqrt (by norm_num : (0:ℝ) ≤ 2)]
    norm_num

/-- Helper: a count of at most `total = 1024` shots gives a ratio in the
unit interval. -/
theorem ratio_unit {num total : ℕ} (ht : total = 1024) (h : num ≤ total) :
    0 ≤ (num : ℚ) / 1024 ∧ (num : ℚ) / 1024 ≤ 1 := by
  subst ht
  constructor
  · positivity
  · rw [div_le_one (by norm_num)]
    exact_mod_cast h

/-- C6: for every built fragment, `execute` reports one value per tag entry
(and no others): for the tag entry `(tag, q)` the reported value is the
number of shots observing qubit `q` in state 1 divided by the 1024 total
shots, a rational in `[0, 1]`.  For Qiskit the shots are recorded as a
counts dictionary (bit `i` of a key being qubit `i` after the key
reversal); for Cirq as one bit list per repetition ordered by the
measurement keys, where the position looked up for qubit `q`,
`keys.index(q)`, is `q` itself because the built circuit uses exactly the
qubits `0, ..., width-1`. -/
theorem C6_execute_values (t : IC) (qc : QiskitCircuit) (cc : CirqCircuit)
    (hq : buildQiskit t = some qc) (hc : buildCirq t = some cc)
    (counts : Counts) (htot : countsTotal counts = 1024)
    (measures : List (List Bool)) (hlen : measures.length = 1024) :
    (qiskitExecuteValues qc.tags counts).map Prod.fst = qc.tags.map Prod.fst ∧
    (∀ p ∈ qc.tags,
      (p.1, (countOnesAt counts p.2 : ℚ) / 1024) ∈ qiskitExecuteValues qc.tags counts) ∧
    (∀ v ∈ qiskitExecuteValues qc.tags counts, 0 ≤ v.2 ∧ v.2 ≤ 1) ∧
    (cirqExecuteValues cc.tags (sortedAllQubits cc.gates) measures).map Prod.fst =
      cc.tags.map Prod.fst ∧
    (∀ p ∈ cc.tags, (sortedAllQubits cc.gates).indexOf p.2 = p.2) ∧
    (∀ p ∈ cc.tags,
      shotOnesAt (sortedAllQubits cc.gates) measures p.2 =
        (measures.map (fun s => if s.getD p.2 false then 1 else 0)).sum) ∧
    (∀ p ∈ cc.tags,
      (p.1, (shotOnesAt (sortedAllQubits cc.gates) measures p.2 : ℚ) / 1024) ∈
        cirqExecuteValues cc.tags (sortedAllQubits cc.gates) measures) ∧
    (∀ v ∈ cirqExecuteValues cc.tags (sortedAllQubits cc.gates) measures,
      0 ≤ v.2 ∧ v.2 ≤ 1) := by
  obtain ⟨qc2, cc2, hq2, hc2, hgates, htags, hAQ, hroot, hw, hnd, hbound, hkeys⟩ :=
    build_master t
  rw [hq2] at hq
  rw [hc2] at hc
  cases hq
  cases hc
  have hsorted : sortedAllQubits cc.gates = List.range qc.numQubits := by
    rw [hgates]
    exact sortedAllQubits_eq_range hAQ
  have hidx : ∀ p ∈ cc.tags, (sortedAllQubits cc.gates).indexOf p.2 = p.2 := by
    intro p hp
    rw [htags] at hp
    rw [hsorted]
    exact indexOf_range (hbound p hp)
  refine ⟨?_, ?_, ?_, ?_, hidx, ?_, ?_, ?_⟩
  · simp [qiskitExecuteValues]
  · intro p hp
    exact List.mem_map.mpr ⟨p, hp, rfl⟩
  · intro v hv
    rcases List.mem_map.mp hv with ⟨p, hp, rfl⟩
    exact ratio_unit htot (countOnesAt_le_total counts p.2)
  · simp [cirqExecuteValues]
  · intro p hp
    unfold shotOnesAt
    rw [hidx p hp]
  · intro p hp
    exact List.mem_map.mpr ⟨p, hp, rfl⟩
  · intro v hv
    rcases List.mem_map.mp hv with ⟨p, hp, rfl⟩
    exact ratio_unit hlen (shotOnesAt_le_length _ measures p.2)

/-- Witness for C6 at the single-Fact tree `Fact("a", 1)`, the counts
dictionary `{[1]: 1024}` and 1024 identical one-bit shots. -/
theorem C6_execute_values_witness :
    (qiskitExecuteValues [("a", 0)] [([true], 1024)]).map Prod.fst =
      [("a", 0)].map Prod.fst ∧
    (∀ p ∈ ([("a", 0)] : Tags),
      (p.1, (countOnesAt [([true], 1024)] p.2 : ℚ) / 1024) ∈
        qiskitExecuteValues [("a", 0)] [([true], 1024)]) ∧
    (∀ v ∈ qiskitExecuteValues [("a", 0)] [([true], 1024)], 0 ≤ v.2 ∧ v.2 ≤ 1) ∧
    (cirqExecuteValues [("a", 0)] (sortedAllQubits [Gate.m 1 0])
        (List.replicate 1024 [true])).map Prod.fst = [("a", 0)].map Prod.fst ∧
    (∀ p ∈ ([("a", 0)] : Tags),
      (sortedAllQubits [Gate.m 1 0]).indexOf p.2 = p.2) ∧
    (∀ p ∈ ([("a", 0)] : Tags),
      shotOnesAt (sortedAllQubits [Gate.m 1 0]) (List.replicate 1024 [true]) p.2 =
        ((List.replicate 1024 [true]).map
          (fun s => if s.getD p.2 false then 1 else 0)).sum) ∧
    (∀ p ∈ ([("a", 0)] : Tags),
      (p.1, (shotOnesAt (sortedAllQubits [Gate.m 1 0])
          (List.replicate 1024 [true]) p.2 : ℚ) / 1024) ∈
        cirqExecuteValues [("a", 0)] (sortedAllQubits [Gate.m 1 0])
          (List.replicate 1024 [true])) ∧
    (∀ v ∈ cirqExecuteValues [("a", 0)] (sortedAllQubits [Gate.m 1 0])
        (List.replicate 1024 [true]), 0 ≤ v.2 ∧ v.2 ≤ 1) :=
  C6_execute_values (.fact "a" 1) ⟨[("a", 0)], 1, [Gate.m 1 0]⟩
    ⟨[("a", 0)], [Gate.m 1 0]⟩ rfl rfl [([true], 1024)] rfl
    (List.replicate 1024 [true]) (List.length_replicate 1024 [true])

end QRBS
